import Mathlib

/-!
# Verification of the golink shortlink service core

A shallow embedding of the core logic of the golink service
(`golink.go`, `db.go`): short-name normalization (`linkID`), the SQLite
and file link stores, click-stats accumulation, the link-expansion
engine (the `text/template` fragment actually used by link patterns,
`net/url` parsing/serialization for the URL shapes links produce), the
recursive link resolver, and the `serveGo` lookup-with-punctuation-retry.

Go strings are modelled as `List Char` (`GoStr`).  Byte-level escaping
(`url.PathEscape` etc.) works on the UTF-8 encoding of each character.
`strings.ToLower` is modelled on its ASCII fragment (Go applies full
Unicode case mapping; every short name in this development is ASCII).
-/

deriving instance DecidableEq for Except

/-- Go `string`, modelled as a list of characters. -/
abbrev GoStr := List Char

/-- Shorthand for turning a Lean string literal into a `GoStr`. -/
def gs (s : String) : GoStr := s.data

/-- The character `{` (written via its code point to keep it out of string literals). -/
def lbrace : Char := Char.ofNat 123

/-- The character `}`. -/
def rbrace : Char := Char.ofNat 125

namespace GoStrings

/-- Go `strings.HasPrefix`. -/
def hasPrefix : (s pre : GoStr) → Bool
  | _, [] => true
  | [], _ :: _ => false
  | c :: s, p :: pre => c = p && hasPrefix s pre

/-- Go `strings.HasSuffix`. -/
def hasSuffix (s suf : GoStr) : Bool := hasPrefix s.reverse suf.reverse

/-- Go `strings.TrimPrefix`. -/
def trimPrefix (s pre : GoStr) : GoStr :=
  if hasPrefix s pre then s.drop pre.length else s

/-- Go `strings.Cut(s, sep)` for a single-character separator (the only
form the source uses): returns `(before, after, found)`. -/
def cutChar (s : GoStr) (sep : Char) : GoStr × GoStr × Bool :=
  match s with
  | [] => ([], [], false)
  | c :: rest =>
    if c = sep then ([], rest, true)
    else
      let p := cutChar rest sep
      (c :: p.1, p.2.1, p.2.2)

/-- Go `strings.TrimRight(s, cutset)`: removes trailing characters that
are in `cutset`. -/
def trimRight (s : GoStr) (cutset : List Char) : GoStr :=
  (s.reverse.dropWhile (fun c => cutset.contains c)).reverse

/-- ASCII fragment of Go `strings.ToLower`. -/
def toLower (s : GoStr) : GoStr :=
  s.map fun c => if 'A' ≤ c ∧ c ≤ 'Z' then Char.ofNat (c.toNat + 32) else c

end GoStrings

section Escaping

/-- UTF-8 encoding of one character, as byte values. -/
def utf8Bytes (c : Char) : List Nat :=
  let n := c.toNat
  if n < 0x80 then [n]
  else if n < 0x800 then [0xC0 ||| (n >>> 6), 0x80 ||| (n &&& 0x3F)]
  else if n < 0x10000 then
    [0xE0 ||| (n >>> 12), 0x80 ||| ((n >>> 6) &&& 0x3F), 0x80 ||| (n &&& 0x3F)]
  else
    [0xF0 ||| (n >>> 18), 0x80 ||| ((n >>> 12) &&& 0x3F),
     0x80 ||| ((n >>> 6) &&& 0x3F), 0x80 ||| (n &&& 0x3F)]

/-- Uppercase hex digit, as used by `net/url`'s percent-escaping. -/
def hexDigitUpper (n : Nat) : Char :=
  if n < 10 then Char.ofNat ('0'.toNat + n) else Char.ofNat ('A'.toNat + (n - 10))

/-- The encoding modes of Go `net/url` that the source exercises. -/
inductive URLEncoding | path | pathSegment | queryComponent
  deriving DecidableEq

/-- Go `net/url.shouldEscape`, restricted to the modes used here.  A byte
is kept verbatim iff this returns `false`. -/
def shouldEscape (b : Nat) (mode : URLEncoding) : Bool :=
  -- §2.3 unreserved characters (alphanumerics)
  if ('a'.toNat ≤ b ∧ b ≤ 'z'.toNat) ∨ ('A'.toNat ≤ b ∧ b ≤ 'Z'.toNat)
      ∨ ('0'.toNat ≤ b ∧ b ≤ '9'.toNat) then false
  -- §2.3 unreserved characters (mark): - _ . ~
  else if b = '-'.toNat ∨ b = '_'.toNat ∨ b = '.'.toNat ∨ b = '~'.toNat then false
  -- §2.2 reserved characters: $ & + , / : ; = ? @
  else if b = '$'.toNat ∨ b = '&'.toNat ∨ b = '+'.toNat ∨ b = ','.toNat
      ∨ b = '/'.toNat ∨ b = ':'.toNat ∨ b = ';'.toNat ∨ b = '='.toNat
      ∨ b = '?'.toNat ∨ b = '@'.toNat then
    match mode with
    | .path => b = '?'.toNat
    | .pathSegment => b = '/'.toNat ∨ b = ';'.toNat ∨ b = ','.toNat ∨ b = '?'.toNat
    | .queryComponent => true
  else true

/-- Percent-escape one byte as `%XX` (uppercase hex). -/
def percentByte (b : Nat) : List Char :=
  ['%', hexDigitUpper (b / 16), hexDigitUpper (b % 16)]

/-- Go `net/url.escape`: percent-escapes a string for the given mode.  In
query components a space becomes `+`. -/
def urlEscape (s : GoStr) (mode : URLEncoding) : GoStr :=
  s.flatMap fun c =>
    (utf8Bytes c).flatMap fun b =>
      if shouldEscape b mode then
        if b = ' '.toNat ∧ mode = .queryComponent then ['+'] else percentByte b
      else [Char.ofNat b]

/-- Go `url.PathEscape`. -/
def pathEscape (s : GoStr) : GoStr := urlEscape s .pathSegment

/-- Go `url.QueryEscape`. -/
def queryEscape (s : GoStr) : GoStr := urlEscape s .queryComponent

/-- Value of an ASCII hex digit, `none` when the character is not one. -/
def hexVal (c : Char) : Option Nat :=
  if '0' ≤ c ∧ c ≤ '9' then some (c.toNat - '0'.toNat)
  else if 'a' ≤ c ∧ c ≤ 'f' then some (c.toNat - 'a'.toNat + 10)
  else if 'A' ≤ c ∧ c ≤ 'F' then some (c.toNat - 'A'.toNat + 10)
  else none

/-- Go `net/url.unescape`: decodes `%XX` sequences (and `+` → space in
query components), failing on a malformed escape.  Decoded bytes are kept
as single characters (the source only round-trips ASCII through this). -/
def urlUnescape (s : GoStr) (mode : URLEncoding) : Option GoStr :=
  match s with
  | [] => some []
  | '%' :: h :: l :: rest => do
    let hv ← hexVal h
    let lv ← hexVal l
    let tail ← urlUnescape rest mode
    pure (Char.ofNat (hv * 16 + lv) :: tail)
  | '%' :: _ => none
  | c :: rest => do
    let tail ← urlUnescape rest mode
    pure ((if c = '+' ∧ mode = .queryComponent then ' ' else c) :: tail)

end Escaping

/-- `linkID` from `db.go`: the normalized ID for a link short name —
lowercase, percent-escape as a URL path segment, then strip dashes. -/
def linkID (short : GoStr) : GoStr :=
  let id := pathEscape (GoStrings.toLower short)
  id.filter (· ≠ '-')

/-- A stored link record.  `created`/`lastEdit` are the Unix-seconds
values the SQLite store persists (`time.Time` in Go, stored via
`.Unix()` and reconstructed with `time.Unix(…, 0).UTC()`). -/
structure Link where
  short : GoStr
  long : GoStr
  created : Int
  lastEdit : Int
  owner : GoStr
  deriving DecidableEq, Repr

/-- The `Links` table of the SQLite store: rows `(ID, link fields)`,
keyed by the normalized ID (primary key). -/
abbrev LinksTable := List (GoStr × Link)

/-- `SQLiteDB.Load`: select the row whose `ID` equals `linkID short`;
`none` models `fs.ErrNotExist` (`sql.ErrNoRows`). -/
def sqLoad (tbl : LinksTable) (short : GoStr) : Option Link :=
  (tbl.find? fun r => r.1 = linkID short).map (·.2)

/-- `SQLiteDB.Save`: `INSERT OR REPLACE` keyed by `linkID link.Short` —
any row with the same ID is replaced by the new one. -/
def sqSave (tbl : LinksTable) (link : Link) : LinksTable :=
  tbl.filter (fun r => r.1 ≠ linkID link.short) ++ [(linkID link.short, link)]

/-- Looking up the key just written by `sqSave` finds the new row: the
rows with that ID were filtered out before the new row was appended. -/
theorem find_after_sqSave (tbl : LinksTable) (id : GoStr) (link : Link) :
    (tbl.filter (fun r => r.1 ≠ id) ++ [(id, link)]).find?
      (fun r => r.1 = id) = some (id, link) := by
  induction tbl with
  | nil => simp [List.find?]
  | cons r tbl ih =>
    by_cases h : r.1 = id
    · simp [List.filter, h, ih]
    · simp [List.filter, h, List.find?, ih]

/-- **C1.** Short names that normalize identically under `linkID`
(lowercase, percent-escape per URL path-segment rules, strip dashes) are
the same storage key: `Load(a)` and `Load(b)` return the same stored
record, and a record saved under one spelling is loaded under any
case/dash variant. -/
theorem load_respects_linkID (tbl : LinksTable) (a b : GoStr)
    (h : linkID a = linkID b) :
    sqLoad tbl a = sqLoad tbl b ∧
    ∀ link : Link, linkID a = linkID link.short →
      sqLoad (sqSave tbl link) a = some link := by
  constructor
  · simp only [sqLoad, h]
  · intro link hid
    simp only [sqLoad, sqSave, hid]
    rw [find_after_sqSave]
    rfl

/-- Witness for C1: `"Foo-Bar"` and `"foobar"` normalize identically, so
loading either from a store holding the record saved as `"Foo-Bar"`
yields that record. -/
theorem load_respects_linkID_witness :
    linkID (gs "Foo-Bar") = linkID (gs "foobar") ∧
    sqLoad [] (gs "Foo-Bar") = sqLoad [] (gs "foobar") ∧
    sqLoad (sqSave []
        { short := gs "Foo-Bar", long := gs "http://foo/", created := 1,
          lastEdit := 2, owner := gs "a@b" }) (gs "foobar") =
      some { short := gs "Foo-Bar", long := gs "http://foo/", created := 1,
             lastEdit := 2, owner := gs "a@b" } := by
  have h : linkID (gs "Foo-Bar") = linkID (gs "foobar") := by decide
  have h2 := load_respects_linkID [] (gs "foobar") (gs "Foo-Bar") h.symm
  exact ⟨h, (load_respects_linkID [] (gs "Foo-Bar") (gs "foobar") h).1,
    h2.2 _ (by decide)⟩

/-- Error outcomes of the embedded operations.  `noUser` is the
distinguished `errNoUser` of `golink.go`; the others tag the failing
stage (Go returns wrapped `error` values). -/
inductive Err
  | noUser        -- errNoUser: a user-requiring template with no user
  | tmplParse     -- text/template parse failure
  | tmplExec      -- template execution failure (e.g. unknown field)
  | urlErr        -- net/url parse failure
  | notExist      -- fs.ErrNotExist from the link store
  deriving DecidableEq, Repr

/-- Host encoding mode of `net/url` (`encodeHost`), used when printing a
URL.  Mirrors the extra allowed set in Go's `shouldEscape`. -/
def shouldEscapeHost (b : Nat) : Bool :=
  if b = '!'.toNat ∨ b = '$'.toNat ∨ b = '&'.toNat ∨ b = '\''.toNat
      ∨ b = '('.toNat ∨ b = ')'.toNat ∨ b = '*'.toNat ∨ b = '+'.toNat
      ∨ b = ','.toNat ∨ b = ';'.toNat ∨ b = '='.toNat ∨ b = ':'.toNat
      ∨ b = '['.toNat ∨ b = ']'.toNat ∨ b = '<'.toNat ∨ b = '>'.toNat
      ∨ b = '"'.toNat then false
  else if ('a'.toNat ≤ b ∧ b ≤ 'z'.toNat) ∨ ('A'.toNat ≤ b ∧ b ≤ 'Z'.toNat)
      ∨ ('0'.toNat ≤ b ∧ b ≤ '9'.toNat) then false
  else if b = '-'.toNat ∨ b = '_'.toNat ∨ b = '.'.toNat ∨ b = '~'.toNat then false
  else true

/-- `escape(host, encodeHost)` as used by `URL.String`. -/
def hostEscape (s : GoStr) : GoStr :=
  s.flatMap fun c =>
    (utf8Bytes c).flatMap fun b =>
      if shouldEscapeHost b then percentByte b else [Char.ofNat b]

/-- Go `net/url.URL`, restricted to the fields the source reads or
writes (no userinfo / OmitHost, which no golink URL carries).  `path` is
the decoded path; `rawPath` is the original encoded path when it differs
from the re-encoding of `path` (Go's `RawPath` convention).  The
fragment is kept in its raw (escaped) form; it is validated at parse
time and printed back verbatim, matching Go for every URL built by
`urlParse`. -/
structure URL where
  scheme : GoStr := []
  opq : GoStr := []      -- Go `URL.Opaque` (rootless path after a scheme)
  host : GoStr := []
  path : GoStr := []
  rawPath : GoStr := []
  forceQuery : Bool := false
  rawQuery : GoStr := []
  rawFragment : GoStr := []
  deriving DecidableEq, Repr

/-- Go `net/url.getScheme`: splits `scheme:rest`, recognising a scheme
only when it starts with a letter and consists of letters, digits,
`+`, `-`, `.` up to a `:`.  Returns `(scheme, rest)`. -/
def getSchemeAux : GoStr → GoStr → Bool → Except Err (GoStr × GoStr)
  | [], acc, _ => .ok ([], acc.reverse)
  | c :: cs, acc, first =>
    if ('a' ≤ c ∧ c ≤ 'z') ∨ ('A' ≤ c ∧ c ≤ 'Z') then
      getSchemeAux cs (c :: acc) false
    else if ('0' ≤ c ∧ c ≤ '9') ∨ c = '+' ∨ c = '-' ∨ c = '.' then
      if first then .ok ([], acc.reverse ++ c :: cs)
      else getSchemeAux cs (c :: acc) false
    else if c = ':' then
      if first then .error .urlErr   -- "missing protocol scheme"
      else .ok (acc.reverse, cs)
    else .ok ([], acc.reverse ++ c :: cs)

/-- Entry point for `getScheme`. -/
def getScheme (s : GoStr) : Except Err (GoStr × GoStr) := getSchemeAux s [] true

/-- Control bytes are rejected by `url.Parse` (`stringContainsCTLByte`). -/
def containsCTL (s : GoStr) : Bool := s.any fun c => c.toNat < 0x20 ∨ c.toNat = 0x7f

/-- `validEncoded` from `net/url`: whether a string is a valid
percent-encoded form for the mode. -/
def validEncoded (s : GoStr) (mode : URLEncoding) : Bool :=
  s.all fun c =>
    if c = '!' ∨ c = '$' ∨ c = '&' ∨ c = '\'' ∨ c = '(' ∨ c = ')' ∨ c = '*'
        ∨ c = '+' ∨ c = ',' ∨ c = ';' ∨ c = '=' ∨ c = ':' ∨ c = '@' then true
    else if c = '[' ∨ c = ']' then true
    else if c = '%' then true
    else ¬shouldEscape c.toNat mode

/-- Go `parseHost` (non-bracketed form): validates an optional `:port`
suffix and percent-decodes.  Bracketed IPv6 hosts are outside the model
(no golink URL uses them). -/
def parseHost (host : GoStr) : Except Err GoStr :=
  if host.head? = some '[' then .error .urlErr
  else
    let i := (host.reverse.takeWhile (· ≠ ':')).length
    let hasColon := host.contains ':'
    let port := if hasColon then host.drop (host.length - i) else []
    if hasColon ∧ ¬port.all (fun c => '0' ≤ c ∧ c ≤ '9') then .error .urlErr
    else
      match urlUnescape host .path with
      | none => .error .urlErr
      | some h => .ok h

/-- Go `parseAuthority`: split userinfo at the last `@` (golink URLs
carry none, but the split itself is kept) and parse the host. -/
def parseAuthority (auth : GoStr) : Except Err GoStr :=
  let hostPart :=
    if auth.contains '@' then (auth.reverse.takeWhile (· ≠ '@')).reverse
    else auth
  parseHost hostPart

/-- `URL.setPath`: decode the path, remembering the original encoding
when it differs from the canonical re-encoding. -/
def setPath (u : URL) (p : GoStr) : Except Err URL :=
  match urlUnescape p .path with
  | none => .error .urlErr
  | some path =>
    if urlEscape path .path = p then .ok { u with path := path, rawPath := [] }
    else .ok { u with path := path, rawPath := p }

/-- Core of Go `net/url.parse` (with `viaRequest = false`), minus the
fragment (split off by `urlParse` below). -/
def parseNoFrag (rawURL : GoStr) : Except Err URL :=
  if containsCTL rawURL then .error .urlErr
  else if rawURL = gs "*" then .ok { path := gs "*" }
  else
    match getScheme rawURL with
    | .error e => .error e
    | .ok (scheme0, rest0) =>
      let scheme := GoStrings.toLower scheme0
      -- ForceQuery / RawQuery split
      let step :=
        if GoStrings.hasSuffix rest0 (gs "?") ∧ ¬(rest0.dropLast.contains '?') then
          (rest0.dropLast, true, ([] : GoStr))
        else
          let c := GoStrings.cutChar rest0 '?'
          (c.1, false, c.2.1)
      let rest := step.1
      let u0 : URL := { scheme := scheme, forceQuery := step.2.1, rawQuery := step.2.2 }
      if ¬GoStrings.hasPrefix rest (gs "/") then
        if scheme ≠ [] then
          -- rootless path with a scheme is opaque
          .ok { u0 with opq := rest }
        else if ((GoStrings.cutChar rest '/').1).contains ':' then
          .error .urlErr   -- "first path segment in URL cannot contain colon"
        else setPath u0 rest
      else
        if (scheme ≠ [] ∨ ¬GoStrings.hasPrefix rest (gs "///"))
            ∧ GoStrings.hasPrefix rest (gs "//") then
          let authority0 := rest.drop 2
          let i := (authority0.takeWhile (· ≠ '/')).length
          let authority := authority0.take i
          let rest' := authority0.drop i
          match parseAuthority authority with
          | .error e => .error e
          | .ok host => setPath { u0 with host := host } rest'
        else setPath u0 rest

/-- Go `url.Parse`: split off the fragment at the first `#`, parse the
rest, and validate the fragment's escapes. -/
def urlParse (rawURL : GoStr) : Except Err URL :=
  let c := GoStrings.cutChar rawURL '#'
  match parseNoFrag c.1 with
  | .error e => .error e
  | .ok u =>
    if ¬c.2.2 then .ok u
    else
      match urlUnescape c.2.1 .path with
      | none => .error .urlErr
      | some _ => .ok { u with rawFragment := c.2.1 }

/-- Go `URL.EscapedPath`. -/
def escapedPath (u : URL) : GoStr :=
  if u.rawPath ≠ [] ∧ validEncoded u.rawPath .path
      ∧ urlUnescape u.rawPath .path = some u.path then u.rawPath
  else if u.path = gs "*" then gs "*"
  else urlEscape u.path .path

/-- Go `URL.String` (no userinfo / OmitHost in the model). -/
def urlString (u : URL) : GoStr :=
  let b0 : GoStr := if u.scheme ≠ [] then u.scheme ++ [':'] else []
  let core :=
    if u.opq ≠ [] then b0 ++ u.opq
    else
      let b1 :=
        if u.scheme ≠ [] ∨ u.host ≠ [] then
          (if u.host ≠ [] ∨ u.path ≠ [] then b0 ++ gs "//" else b0)
            ++ hostEscape u.host
        else b0
      let p := escapedPath u
      let b2 := b1 ++ (if p ≠ [] ∧ p.head? ≠ some '/' ∧ u.host ≠ [] then gs "/" else [])
      let b3 := if b2 = [] ∧ ((GoStrings.cutChar p '/').1).contains ':' then gs "./" else b2
      b3 ++ p
  core ++ (if u.forceQuery ∨ u.rawQuery ≠ [] then '?' :: u.rawQuery else [])
    ++ (if u.rawFragment ≠ [] then '#' :: u.rawFragment else [])

/-- Go `url.Values`, as an association list from key to the value slice
(Go's map iteration order is irrelevant here: `Encode` sorts keys). -/
abbrev Values := List (GoStr × List GoStr)

/-- Map lookup `v[key]` (missing key ↦ empty slice, as in Go). -/
def valuesGet (v : Values) (k : GoStr) : List GoStr :=
  ((v.find? (·.1 = k)).map (·.2)).getD []

/-- Go `Values.Add`: append one value to the key's slice. -/
def valuesAdd : Values → GoStr → GoStr → Values
  | [], k, val => [(k, [val])]
  | e :: rest, k, val =>
    if e.1 = k then (e.1, e.2 ++ [val]) :: rest else e :: valuesAdd rest k val

/-- Go byte-lexicographic string `<` (`sort.Strings` order). -/
def lexLt : GoStr → GoStr → Bool
  | [], [] => false
  | [], _ :: _ => true
  | _ :: _, [] => false
  | a :: as, b :: bs =>
    if a.toNat < b.toNat then true
    else if b.toNat < a.toNat then false
    else lexLt as bs

/-- Insertion step of the key sort used by `Values.Encode`. -/
def insertByKey (e : GoStr × List GoStr) : Values → Values
  | [] => [e]
  | f :: rest => if lexLt e.1 f.1 then e :: f :: rest else f :: insertByKey e rest

/-- Sort entries by key (Go `Encode` sorts the map's keys). -/
def sortByKey (v : Values) : Values := v.foldr insertByKey []

/-- Go `Values.Encode`: keys sorted, each `key=value` pair query-escaped
and joined with `&`. -/
def valuesEncode (v : Values) : GoStr :=
  List.intercalate (gs "&")
    ((sortByKey v).flatMap fun e =>
      e.2.map fun val => queryEscape e.1 ++ '=' :: queryEscape val)

/-- One loop body of Go `net/url.parseQuery`: handle the segment
between two `&`s — reject it if it contains `;` or is empty, split at
the first `=`, percent-decode key and value (skipping the pair on a
malformed escape), and add it. -/
def parseQueryPair (m : Values) (key0 : GoStr) : Values :=
  if key0.contains ';' then m
  else if key0 = [] then m
  else
    let kv := GoStrings.cutChar key0 '='
    match urlUnescape kv.1 .queryComponent, urlUnescape kv.2.1 .queryComponent with
    | some k, some v => valuesAdd m k v
    | _, _ => m

/-- The `&`-splitting loop of `parseQuery`, scanning character by
character with the current segment accumulated in reverse. -/
def parseQueryAux : GoStr → GoStr → Values → Values
  | [], acc, m => parseQueryPair m acc.reverse
  | c :: cs, acc, m =>
    if c = '&' then parseQueryAux cs [] (parseQueryPair m acc.reverse)
    else parseQueryAux cs (c :: acc) m

/-- Go `net/url.parseQuery` (as used by `URL.Query()`, which discards
the error): split on `&`, reject pairs containing `;`, percent-decode
key and value, skipping malformed pairs. -/
def parseQuery (m : Values) (query : GoStr) : Values :=
  if query = [] then m else parseQueryAux query [] m

/-- `strings.Contains(long, "\x7b\x7b")` — the template-marker test of
`expandLink`: an adjacent pair of opening braces occurs somewhere. -/
def containsMarker : GoStr → Bool
  | [] => false
  | c :: cs => (c = lbrace ∧ cs.head? = some lbrace) ∨ containsMarker cs

/-- One lexed element of a template: literal text or the body of a
`\x7b\x7b…\x7d\x7d` action. -/
inductive TmplItem
  | text (t : GoStr)
  | action (a : GoStr)
  deriving DecidableEq, Repr

/-- Lexer for the template fragment, scanning character by character.
`inAction` says whether we are inside a `\x7b\x7b…\x7d\x7d` action;
`acc` accumulates the current text or action body in reverse.  The
leftmost delimiter pair always wins, as in `text/template`'s lexer.
(Text items are emitted even when empty; Go omits empty text nodes,
which produces the identical executed output.)  Input ending inside an
action is an unterminated-action parse error, as in `text/template`. -/
def lexAux : GoStr → Bool → GoStr → Except Err (List TmplItem)
  | [], inAction, acc =>
    if inAction then .error .tmplParse else .ok [.text acc.reverse]
  | [c], inAction, acc =>
    if inAction then .error .tmplParse else .ok [.text (acc.reverse ++ [c])]
  | c1 :: c2 :: cs, inAction, acc =>
    if inAction then
      if c1 = rbrace ∧ c2 = rbrace then
        match lexAux cs false [] with
        | .error e => .error e
        | .ok items => .ok (.action acc.reverse :: items)
      else lexAux (c2 :: cs) true (c1 :: acc)
    else
      if c1 = lbrace ∧ c2 = lbrace then
        match lexAux cs true [] with
        | .error e => .error e
        | .ok items => .ok (.text acc.reverse :: items)
      else lexAux (c2 :: cs) false (c1 :: acc)

/-- Lex a whole template string. -/
def lexTemplate (s : GoStr) : Except Err (List TmplItem) := lexAux s false []

/-- Go template whitespace (`text/template` lexer's `isSpace`). -/
def isSpaceGo (c : Char) : Bool := c = ' ' ∨ c = '\t' ∨ c = '\r' ∨ c = '\n'

/-- Trim surrounding whitespace of an action body. -/
def trimSpace (s : GoStr) : GoStr :=
  ((s.dropWhile isSpaceGo).reverse.dropWhile isSpaceGo).reverse

/-- Identifier characters of template field names. -/
def isIdentChar (c : Char) : Bool :=
  ('a' ≤ c ∧ c ≤ 'z') ∨ ('A' ≤ c ∧ c ≤ 'Z') ∨ ('0' ≤ c ∧ c ≤ '9') ∨ c = '_'

/-- Parse a double-quoted string literal (no escape sequences — callers
of the theorems exclude backslashes and quotes from the quantified
strings); returns the body and the rest after the closing quote. -/
def parseQuoted (s : GoStr) : Option (GoStr × GoStr) :=
  match s with
  | '"' :: rest =>
    let body := rest.takeWhile (· ≠ '"')
    match rest.drop body.length with
    | '"' :: tail => if body.contains '\\' then none else some (body, tail)
    | _ => none
  | _ => none

/-- A parsed action of the template fragment golink links use:
`.Path`, `.User`, other field references (an execution-time error on
`expandEnv`), bare `.`, `with .Path`, `end`, and the `Match` function
applied to two string literals.  Constructs outside this fragment
(other functions, pipelines, `.Now` with time formatting, variables)
are mapped to a parse failure; no theorem below quantifies over them. -/
inductive TmplAction
  | fieldPath | fieldUser
  | fieldOther (name : GoStr)
  | dotA
  | withPath
  | endA
  | matchLit (pat subj : GoStr)
  deriving DecidableEq, Repr

/-- Parse one action body. -/
def parseActionStr (a0 : GoStr) : Except Err TmplAction :=
  let a := trimSpace a0
  if a = gs "end" then .ok .endA
  else if a = gs "." then .ok .dotA
  else if GoStrings.hasPrefix a (gs "with ") then
    if trimSpace (a.drop 5) = gs ".Path" then .ok .withPath else .error .tmplParse
  else if GoStrings.hasPrefix a (gs "Match ") then
    match parseQuoted ((a.drop 6).dropWhile isSpaceGo) with
    | none => .error .tmplParse
    | some (pat, r1) =>
      match parseQuoted (r1.dropWhile isSpaceGo) with
      | none => .error .tmplParse
      | some (subj, r2) =>
        if r2.dropWhile isSpaceGo = [] then .ok (.matchLit pat subj)
        else .error .tmplParse
  else if a.head? = some '.' then
    let f := a.drop 1
    if f = gs "Path" then .ok .fieldPath
    else if f = gs "User" then .ok .fieldUser
    else if f ≠ [] ∧ f.all isIdentChar ∧ f ≠ gs "Now" then .ok (.fieldOther f)
    else .error .tmplParse
  else .error .tmplParse

/-- A node of the parsed template tree. -/
inductive Node
  | text (t : GoStr)
  | fieldPath | fieldUser
  | fieldOther (name : GoStr)
  | dotN
  | withPath (body : List Node)
  | matchLit (pat subj : GoStr)
  deriving Repr

/-- Build the node tree from lexed items with an explicit stack of
enclosing `with`-block bodies: `cur` is the current block's nodes in
reverse, `stk` the suspended outer blocks.  A `with` pushes, an `end`
pops and wraps; input ending inside a block, or a stray top-level
`end`, is a parse error (as in `text/template`). -/
def buildAux : List TmplItem → List Node → List (List Node) →
    Except Err (List Node)
  | [], cur, [] => .ok cur.reverse
  | [], _, _ :: _ => .error .tmplParse
  | .text t :: rest, cur, stk => buildAux rest (.text t :: cur) stk
  | .action a :: rest, cur, stk =>
    match parseActionStr a with
    | .error e => .error e
    | .ok .withPath => buildAux rest [] (cur :: stk)
    | .ok .endA =>
      match stk with
      | [] => .error .tmplParse
      | outer :: stk' => buildAux rest (.withPath cur.reverse :: outer) stk'
    | .ok .fieldPath => buildAux rest (.fieldPath :: cur) stk
    | .ok .fieldUser => buildAux rest (.fieldUser :: cur) stk
    | .ok (.fieldOther f) => buildAux rest (.fieldOther f :: cur) stk
    | .ok .dotA => buildAux rest (.dotN :: cur) stk
    | .ok (.matchLit pat subj) => buildAux rest (.matchLit pat subj :: cur) stk

/-- `text/template.Parse` for the fragment: lex, then build the tree. -/
def parseTmpl (s : GoStr) : Except Err (List Node) :=
  match lexTemplate s with
  | .error e => .error e
  | .ok items => buildAux items [] []

/-- `expandEnv` from `golink.go`: the template execution context.
`now` stands for the `time.Time` field as Unix seconds (no claim uses
time formatting); `query` is `r.URL.Query()` of the inbound request. -/
structure ExpandEnv where
  now : Int := 0
  path : GoStr := []
  user : GoStr := []
  query : Values := []

/-- An abstract regular-expression compiler standing for
`regexp.Compile`: either a compile error (the message) or a matcher.
`regexp.MatchString` and `regexMatch` below are parameterized over it;
every theorem about them holds for an arbitrary compiler. -/
abbrev ReCompile := GoStr → Except GoStr (GoStr → Bool)

/-- Go `regexp.MatchString`: compile, returning `(false, err)` on a
compile error, else the match result and no error. -/
def matchStringGo (compile : ReCompile) (pattern s : GoStr) : Bool × Option GoStr :=
  match compile pattern with
  | .error e => (false, some e)
  | .ok re => (re s, none)

/-- `regexMatch` from `golink.go`: `b, _ := regexp.MatchString(pattern, s);
return b` — the error is discarded. -/
def regexMatch (compile : ReCompile) (pattern s : GoStr) : Bool :=
  (matchStringGo compile pattern s).1

/-- How a `bool` prints in template output. -/
def boolStr (b : Bool) : GoStr := if b then gs "true" else gs "false"

/-- Execute the body of a `with .Path` block, where `.` is rebound to
the (string) path value `s`.  Field access on a string — including the
`.Path` of a nested `with` — is an execution error, exactly Go's
"can't evaluate field … in type string"; consequently execution never
recurses into a second block level, which is why the executor can be
split into this function and `execTop` below.  Output is concatenated
in order; the first error aborts (`Template.Execute` semantics). -/
def execBody (compile : ReCompile) (s : GoStr) : List Node → Except Err GoStr
  | [] => .ok []
  | n :: ns =>
    let head : Except Err GoStr :=
      match n with
      | .text t => .ok t
      | .fieldPath => .error .tmplExec
      | .fieldUser => .error .tmplExec
      | .fieldOther _ => .error .tmplExec
      | .dotN => .ok s
      | .withPath _ => .error .tmplExec
      | .matchLit pat subj => .ok (boolStr (regexMatch compile pat subj))
    match head with
    | .error er => .error er
    | .ok out =>
      match execBody compile s ns with
      | .error er => .error er
      | .ok t => .ok (out ++ t)

/-- Execute a template at top level, where `.` is the `expandEnv`
struct: `.Path` and `.User` read the context (`.User` failing with
`errNoUser` when no user is known), an unknown field is an execution
error, a bare `\x7b\x7b.\x7d\x7d` is treated as an error (Go would
print the struct's `fmt` representation — no link template does this,
and the development never evaluates that case), and a `with .Path`
block executes its body via `execBody` when the path is nonempty and
emits nothing when it is empty. -/
def execTop (compile : ReCompile) (e : ExpandEnv) : List Node → Except Err GoStr
  | [] => .ok []
  | n :: ns =>
    let head : Except Err GoStr :=
      match n with
      | .text t => .ok t
      | .fieldPath => .ok e.path
      | .fieldUser => if e.user = [] then .error .noUser else .ok e.user
      | .fieldOther _ => .error .tmplExec
      | .dotN => .error .tmplExec
      | .withPath body =>
        if e.path = [] then .ok [] else execBody compile e.path body
      | .matchLit pat subj => .ok (boolStr (regexMatch compile pat subj))
    match head with
    | .error er => .error er
    | .ok out =>
      match execTop compile e ns with
      | .error er => .error er
      | .ok t => .ok (out ++ t)

/-- The suffix appended to a plain long URL that ends in `/`:
`\x7b\x7b.Path\x7d\x7d`. -/
def tmplPathSuffix : GoStr := gs "\x7b\x7b.Path\x7d\x7d"

/-- The suffix appended to a plain long URL that does not end in `/`:
`\x7b\x7bwith .Path\x7d\x7d/\x7b\x7b.\x7d\x7d\x7b\x7bend\x7d\x7d`. -/
def tmplWithSuffix : GoStr := gs "\x7b\x7bwith .Path\x7d\x7d/\x7b\x7b.\x7d\x7d\x7b\x7bend\x7d\x7d"

/-- The nested `Add` loop of `expandLink`'s query merge:
`for key, values := range env.query { for _, v := range values
{ query.Add(key, v) } }`. -/
def addAllValues (base extra : Values) : Values :=
  extra.foldl (fun acc kv => kv.2.foldl (fun a v => valuesAdd a kv.1 v) acc) base

/-- The query-merge step at the end of `expandLink`: when the inbound
request carried query parameters, append them to the expanded URL's own
query (`u.Query()` + `Add`, re-encoded). -/
def applyRequestQuery (env : ExpandEnv) (u : URL) : URL :=
  if env.query = [] then u
  else
    { u with rawQuery := valuesEncode (addAllValues (parseQuery [] u.rawQuery) env.query) }

/-- `expandLink` from `golink.go`: if `long` has no `\x7b\x7b` marker,
append the default path suffix (`\x7b\x7b.Path\x7d\x7d` after a trailing
slash, else the `with`-guarded `/`-inserting suffix); parse and execute
the template; parse the output as a URL; then merge the request's query
parameters. -/
def expandLink (compile : ReCompile) (long : GoStr) (env : ExpandEnv) :
    Except Err URL :=
  let long :=
    if ¬containsMarker long then
      if GoStrings.hasSuffix long (gs "/") then long ++ tmplPathSuffix
      else long ++ tmplWithSuffix
    else long
  match parseTmpl long with
  | .error e => .error e
  | .ok ns =>
    match execTop compile env ns with
    | .error e => .error e
    | .ok out =>
      match urlParse out with
      | .error e => .error e
      | .ok u => .ok (applyRequestQuery env u)

/-- `resolveLink` from `golink.go`, with an explicit recursion budget:
split the input into short name and remainder, load, expand (with no
user and no query, as the source does), and — when the expanded URL's
host is empty or is this service's own hostname — resolve the result
again.  The Go function has no such budget; `none` means the budget ran
out, so `(∀ fuel, … = none)` states that the Go recursion never
terminates on that input.  (`expandEnv.Now` is passed as `0`; no
template in the fragment reads it.) -/
def resolveLink (compile : ReCompile) (hostname : GoStr) (tbl : LinksTable) :
    Nat → URL → Option (Except Err URL)
  | 0, _ => none
  | fuel + 1, link =>
    let path :=
      if link.host = [] then GoStrings.trimPrefix link.path hostname
      else link.path
    let c := GoStrings.cutChar (GoStrings.trimPrefix path (gs "/")) '/'
    match sqLoad tbl c.1 with
    | none => some (.error .notExist)
    | some l =>
      match expandLink compile l.long { now := 0, path := c.2.1 } with
      | .error e => some (.error e)
      | .ok dst =>
        if dst.host = [] ∨ dst.host = hostname then
          resolveLink compile hostname tbl fuel dst
        else some (.ok dst)

/-- The punctuation cutset `".,()[]\x7b\x7d"` of `serveGo`'s retry. -/
def punctCutset : List Char := ['.', ',', '(', ')', '[', ']', lbrace, rbrace]

/-- The lookup step of `serveGo` (`golink.go`): load the short name; on
`fs.ErrNotExist`, trim trailing punctuation and, if that changed the
name, try once more. -/
def serveGoLoad (tbl : LinksTable) (short : GoStr) : Option Link :=
  match sqLoad tbl short with
  | some l => some l
  | none =>
    let s := GoStrings.trimRight short punctCutset
    if short ≠ s then sqLoad tbl s else none

/-- A row of the SQLite `Stats` table: `(ID, Created, Clicks)`. -/
abbrev StatsTable := List (GoStr × Int × Int)

/-- `SQLiteDB.SaveStats`: append one row `(linkID short, now, clicks)`
per entry of the incremental batch (the table is append-only). -/
def saveStats (tbl : StatsTable) (now : Int) (delta : List (GoStr × Int)) :
    StatsTable :=
  tbl ++ delta.map fun e => (linkID e.1, now, e.2)

/-- `sum(Clicks) … GROUP BY ID` for one ID. -/
def sumClicks (tbl : StatsTable) (id : GoStr) : Int :=
  ((tbl.filter fun r => r.1 = id).map fun r => r.2.2).sum

/-- `SQLiteDB.LoadStats`: aggregate clicks per ID and map each ID back
to the link's current canonical `Short` spelling (empty when no link
with that ID exists, as Go's map lookup yields `""`). -/
def loadStats (links : LinksTable) (stats : StatsTable) : List (GoStr × Int) :=
  let ids := (stats.map (·.1)).dedup
  ids.map fun id =>
    (((links.find? fun r => linkID r.2.short = id).map fun r => r.2.short).getD [],
      sumClicks stats id)

/-- The `Link` struct of the file-backed store (`db.go`, `package main`
variant), which also carries the click counter. -/
structure FileLink where
  short : GoStr
  long : GoStr
  created : Int
  lastEdit : Int
  owner : GoStr
  clicks : Int := 0
  deriving DecidableEq, Repr

/-- `strings.ReplaceAll(name, ".", "%2e")` of `FileDB.linkPath`. -/
def replaceDot (s : GoStr) : GoStr :=
  s.flatMap fun c => if c = '.' then gs "%2e" else [c]

/-- `FileDB.linkPath`: store directory joined with the normalized short
name, dots escaped (`filepath.Join` on a clean dir is `dir ++ "/" ++ name`). -/
def fileLinkPath (dir short : GoStr) : GoStr :=
  dir ++ gs "/" ++ replaceDot (linkID short)

/-- Decimal digits of a natural number. -/
def natStr (n : Nat) : GoStr :=
  if n < 10 then [Char.ofNat ('0'.toNat + n)]
  else natStr (n / 10) ++ [Char.ofNat ('0'.toNat + n % 10)]

/-- Decimal rendering of an integer. -/
def intStr (i : Int) : GoStr :=
  if i < 0 then '-' :: natStr (-i).toNat else natStr i.toNat

/-- Zero-padded decimal of the given width. -/
def padNat (width n : Nat) : GoStr :=
  let s := natStr n
  List.replicate (width - s.length) '0' ++ s

/-- Civil date from days since the Unix epoch (Howard Hinnant's
`civil_from_days`, as Go's calendar arithmetic computes). -/
def civilFromDays (z0 : Int) : Int × Int × Int :=
  let z := z0 + 719468
  let era := (if 0 ≤ z then z else z - 146096) / 146097
  let doe := z - era * 146097
  let yoe := (doe - doe / 1460 + doe / 36524 - doe / 146096) / 365
  let y := yoe + era * 400
  let doy := doe - (365 * yoe + yoe / 4 - yoe / 100)
  let mp := (5 * doy + 2) / 153
  let d := doy - (153 * mp + 2) / 5 + 1
  let m := mp + (if mp < 10 then 3 else -9)
  (y + (if m ≤ 2 then 1 else 0), m, d)

/-- RFC 3339 UTC rendering of a Unix-seconds value — how the `time.Time`
fields of a `Link` marshal to JSON. -/
def rfc3339 (t : Int) : GoStr :=
  let days := Int.ediv t 86400
  let secs := (Int.emod t 86400).toNat
  let ymd := civilFromDays days
  padNat 4 ymd.1.toNat ++ gs "-" ++ padNat 2 ymd.2.1.toNat ++ gs "-"
    ++ padNat 2 ymd.2.2.toNat ++ gs "T" ++ padNat 2 (secs / 3600)
    ++ gs ":" ++ padNat 2 (secs / 60 % 60) ++ gs ":" ++ padNat 2 (secs % 60)
    ++ gs "Z"

/-- JSON string quoting as `encoding/json` produces it (HTML-escaping
`<`, `>`, `&` as the default encoder does). -/
def jsonQuote (s : GoStr) : GoStr :=
  '"' :: (s.flatMap fun c =>
    if c = '"' then gs "\\\x22"
    else if c = '\\' then gs "\\\\"
    else if c = '\n' then gs "\\n"
    else if c = '\t' then gs "\\t"
    else if c = '\r' then gs "\\r"
    else if c = '<' then gs "\\u003c"
    else if c = '>' then gs "\\u003e"
    else if c = '&' then gs "\\u0026"
    else if c.toNat < 0x20 then
      gs "\\u00" ++ [hexDigitUpper (c.toNat / 16), hexDigitUpper (c.toNat % 16)]
    else [c]) ++ ['"']

/-- `json.MarshalIndent(link, "", "  ")` for the file store's `Link`
(field order as declared; `Clicks` has `omitempty`). -/
def marshalIndentLink (l : FileLink) : GoStr :=
  gs "\x7b\n  \x22Short\x22: " ++ jsonQuote l.short
    ++ gs ",\n  \x22Long\x22: " ++ jsonQuote l.long
    ++ gs ",\n  \x22Created\x22: " ++ jsonQuote (rfc3339 l.created)
    ++ gs ",\n  \x22LastEdit\x22: " ++ jsonQuote (rfc3339 l.lastEdit)
    ++ gs ",\n  \x22Owner\x22: " ++ jsonQuote l.owner
    ++ (if l.clicks ≠ 0 then gs ",\n  \x22Clicks\x22: " ++ intStr l.clicks else [])
    ++ gs "\n\x7d"

/-- A file system: file path ↦ contents. -/
abbrev FileSys := GoStr → Option GoStr

/-- Outcome of the single `write` of `os.WriteFile`: either it succeeds,
or it fails after `k` bytes have reached the file. -/
inductive WriteOutcome
  | ok
  | failAfter (k : Nat)

/-- `os.WriteFile`: the target is opened with `O_TRUNC` and the data is
written in place — on a mid-write failure the file is left holding the
prefix written so far.  Returns the new file system and whether the
write succeeded. -/
def osWriteFile (fs : FileSys) (name data : GoStr) (out : WriteOutcome) :
    FileSys × Bool :=
  match out with
  | .ok => (fun n => if n = name then some data else fs n, true)
  | .failAfter k => (fun n => if n = name then some (data.take k) else fs n, false)

/-- `FileDB.Save`: marshal the link as indented JSON and `os.WriteFile`
it to `linkPath(link.Short)`. -/
def fileSave (fs : FileSys) (dir : GoStr) (l : FileLink) (out : WriteOutcome) :
    FileSys × Bool :=
  osWriteFile fs (fileLinkPath dir l.short) (marshalIndentLink l) out

/-- A concrete regexp compiler used in witnesses: `"("` is the invalid
pattern (Go: `missing closing )`); anything else compiles to a matcher
that tests nothing. -/
def compileStub : ReCompile :=
  fun p => if p = gs "(" then .error (gs "missing closing )") else .ok (fun _ => false)

/-- Stored links forming the alias chain of the spec's resolver example:
`chat → "/meet"`, `meet → "https://meet.google.com/lookup/"`. -/
def chatTable : LinksTable :=
  [(linkID (gs "meet"),
    { short := gs "meet", long := gs "https://meet.google.com/lookup/",
      created := 0, lastEdit := 0, owner := [] }),
   (linkID (gs "chat"),
    { short := gs "chat", long := gs "/meet",
      created := 0, lastEdit := 0, owner := [] })]

/-- **C4.** Resolution splits `"chat/foo"` into short name `chat` and
remainder `foo`, loads `chat`, expands its long URL `"/meet"` against
the remainder to `"/meet/foo"`, sees an empty host, re-resolves that as
another short-name reference (`meet` with remainder `foo`), and the
second expansion's host `meet.google.com` is neither empty nor the
service's own hostname `go`, so it is final:
`"https://meet.google.com/lookup/foo"` — the remainder is carried
through the alias.  The budget `fuel + 2` covers the two resolution
steps for every `fuel`. -/
theorem resolveLink_alias_carries_remainder (compile : ReCompile) (fuel : Nat) :
    (resolveLink compile (gs "go") chatTable (fuel + 2)
        { path := gs "chat/foo" }).map (Except.map urlString)
      = some (.ok (gs "https://meet.google.com/lookup/foo")) := rfl

/-- Stored links forming a cyclic alias chain: `a → "/b"`, `b → "/a"`. -/
def cycTable : LinksTable :=
  [(linkID (gs "a"),
    { short := gs "a", long := gs "/b", created := 0, lastEdit := 0, owner := [] }),
   (linkID (gs "b"),
    { short := gs "b", long := gs "/a", created := 0, lastEdit := 0, owner := [] })]

/-- **C5.** `resolveLink` imposes no maximum resolution depth: on the
cyclic alias chain `a → "/b" → "/a" → …` the recursion never returns —
for every recursion budget the fueled model runs out of fuel (`none`),
i.e. there is no depth at which resolution terminates, with a
"resolution loop" error or otherwise. -/
theorem resolveLink_cycle_diverges (compile : ReCompile) (fuel : Nat) :
    resolveLink compile (gs "go") cycTable fuel { path := gs "a" } = none := by
  have key : ∀ n : Nat,
      resolveLink compile (gs "go") cycTable n { path := gs "/b" } = none ∧
      resolveLink compile (gs "go") cycTable n { path := gs "/a" } = none := by
    intro n
    induction n with
    | zero => exact ⟨rfl, rfl⟩
    | succ n ih => exact ⟨ih.2, ih.1⟩
  match fuel with
  | 0 => rfl
  | n + 1 => exact (key n).1

/-- **C9.** When serving a go link whose short name is not found, the
handler trims trailing punctuation from the set `. , ( ) [ ] \x7b \x7d`
and retries the lookup once before responding not-found: a link stored
under the trimmed name is served even when the request carries trailing
punctuation. -/
theorem serveGo_trims_trailing_punctuation (tbl : LinksTable) (short : GoStr)
    (l : Link) (h1 : sqLoad tbl short = none)
    (h2 : sqLoad tbl (GoStrings.trimRight short punctCutset) = some l) :
    serveGoLoad tbl short = some l := by
  unfold serveGoLoad
  rw [h1]
  by_cases he : short = GoStrings.trimRight short punctCutset
  · rw [← he] at h2
    rw [h1] at h2
    cases h2
  · rw [if_pos he, h2]

/-- A one-link store used by the serveGo witness. -/
def fooTable : LinksTable :=
  [(linkID (gs "foo"),
    { short := gs "foo", long := gs "http://foo/", created := 0, lastEdit := 0,
      owner := [] })]

/-- Witness for C9: `"foo)."` is not stored, but trimming its trailing
punctuation yields `"foo"`, which is — and the handler serves it. -/
theorem serveGo_trims_trailing_punctuation_witness :
    serveGoLoad fooTable (gs "foo).")
      = some { short := gs "foo", long := gs "http://foo/", created := 0,
               lastEdit := 0, owner := [] } :=
  serveGo_trims_trailing_punctuation fooTable (gs "foo).") _ (by decide) (by decide)

/-- The part of one `SaveStats` batch credited to a normalized ID: the
sum of the increments whose short name normalizes to it. -/
def deltaClicks (delta : List (GoStr × Int)) (id : GoStr) : Int :=
  ((delta.filter fun e => linkID e.1 = id).map (·.2)).sum

/-- `sum(Clicks)` distributes over appended stats rows. -/
theorem sumClicks_append (t1 t2 : StatsTable) (id : GoStr) :
    sumClicks (t1 ++ t2) id = sumClicks t1 id + sumClicks t2 id := by
  simp [sumClicks, List.filter_append]

/-- The rows one `SaveStats` call appends contribute exactly the batch's
increments for each ID. -/
theorem sumClicks_saveStats (tbl : StatsTable) (now : Int)
    (delta : List (GoStr × Int)) (id : GoStr) :
    sumClicks (saveStats tbl now delta) id = sumClicks tbl id + deltaClicks delta id := by
  rw [saveStats, sumClicks_append]
  congr 1
  induction delta with
  | nil => rfl
  | cons e delta ih =>
    by_cases h : linkID e.1 = id
    · simp [sumClicks, deltaClicks, List.filter, h] at ih ⊢
      omega
    · simp [sumClicks, deltaClicks, List.filter, h] at ih ⊢
      exact ih

/-- The one-link store for the stats example. -/
def xTable : LinksTable :=
  [(linkID (gs "x"),
    { short := gs "x", long := gs "http://x/", created := 0, lastEdit := 0,
      owner := [] })]

/-- **C7.** Click stats accumulate and are never overwritten.  First
conjunct: after any sequence of `SaveStats` batches on top of any
existing `Stats` rows, the `sum(Clicks) GROUP BY ID` total that
`LoadStats` reports for an ID is the previous total plus the sum of all
increments saved for that ID — each call adds, none replaces.  Second
conjunct: concretely, `SaveStats({x:1}); SaveStats({x:2}); LoadStats()`
reports 3 for `x`. -/
theorem saveStats_accumulates :
    (∀ (stats0 : StatsTable) (batches : List (Int × List (GoStr × Int))) (id : GoStr),
      sumClicks (batches.foldl (fun t b => saveStats t b.1 b.2) stats0) id
        = sumClicks stats0 id + (batches.map fun b => deltaClicks b.2 id).sum) ∧
    loadStats xTable
        (saveStats (saveStats [] 10 [(gs "x", 1)]) 20 [(gs "x", 2)])
      = [(gs "x", 3)] := by
  constructor
  · intro stats0 batches id
    induction batches generalizing stats0 with
    | nil => simp
    | cons b batches ih =>
      simp only [List.foldl_cons, List.map_cons, List.sum_cons]
      rw [ih, sumClicks_saveStats]
      omega
  · decide

/-- The store directory used in the FileDB examples. -/
def dir0 : GoStr := gs "/links"

/-- The record previously stored under `foo` in the FileDB examples. -/
def oldRecord : FileLink :=
  { short := gs "foo", long := gs "http://old/", created := 0, lastEdit := 0,
    owner := gs "a@b" }

/-- The new record whose save fails mid-write in the FileDB examples. -/
def newRecord : FileLink :=
  { short := gs "foo", long := gs "http://new/", created := 5, lastEdit := 6,
    owner := gs "a@b" }

/-- The file system holding `oldRecord`'s JSON file before the failed save. -/
def fs0 : FileSys :=
  fun n => if n = fileLinkPath dir0 (gs "foo") then some (marshalIndentLink oldRecord)
    else none

/-- **C8, counterexample.**  The claim says a `Save` that fails
mid-write leaves the previously stored record unchanged (atomic
replace).  `FileDB.Save` uses `os.WriteFile`, which truncates and
writes in place: when the write of `newRecord` fails after 3 bytes, the
file no longer holds `oldRecord`'s JSON — the old record is destroyed. -/
theorem fileSave_midwrite_not_atomic :
    (fileSave fs0 dir0 newRecord (.failAfter 3)).2 = false ∧
    (fileSave fs0 dir0 newRecord (.failAfter 3)).1 (fileLinkPath dir0 (gs "foo"))
      ≠ some (marshalIndentLink oldRecord) := by
  constructor
  · rfl
  · decide

/-- **C8, amended.**  `FileDB.Save` performs a truncating in-place
write (`os.WriteFile`), not an atomic replace: a save of `l` that fails
after `k` bytes leaves `linkPath(l.Short)` holding exactly the first
`k` bytes of the new JSON encoding — a partial overwrite in which the
previously stored record is not preserved — while every other file is
untouched. -/
theorem fileSave_midwrite_partial_overwrite (fs : FileSys) (dir : GoStr)
    (l : FileLink) (k : Nat) :
    (fileSave fs dir l (.failAfter k)).2 = false ∧
    (fileSave fs dir l (.failAfter k)).1 (fileLinkPath dir l.short)
      = some ((marshalIndentLink l).take k) ∧
    ∀ n : GoStr, n ≠ fileLinkPath dir l.short →
      (fileSave fs dir l (.failAfter k)).1 n = fs n := by
  refine ⟨rfl, by simp [fileSave, osWriteFile], ?_⟩
  intro n hn
  simp [fileSave, osWriteFile, hn]

/-- Witness for the amended C8 theorem at the concrete failed save. -/
theorem fileSave_midwrite_partial_overwrite_witness :
    (fileSave fs0 dir0 newRecord (.failAfter 3)).1 (fileLinkPath dir0 (gs "foo"))
      = some ((marshalIndentLink newRecord).take 3) ∧
    (fileSave fs0 dir0 newRecord (.failAfter 3)).1 (gs "/links/other") = fs0 (gs "/links/other") := by
  have h := fileSave_midwrite_partial_overwrite fs0 dir0 newRecord 3
  exact ⟨h.2.1, h.2.2 (gs "/links/other") (by decide)⟩

/-- Whether an adjacent `\x7d\x7d` close-delimiter pair occurs. -/
def containsClose : GoStr → Bool
  | [] => false
  | c :: cs => (c = rbrace ∧ cs.head? = some rbrace) ∨ containsClose cs

/-- Lexing at an opening delimiter: the accumulated text is emitted and
the action body is scanned. -/
theorem lexAux_marker_head (rest acc : GoStr) :
    lexAux (lbrace :: lbrace :: rest) false acc
      = (lexAux rest true []).map (fun items => .text acc.reverse :: items) := by
  cases h : lexAux rest true [] <;> simp [lexAux, h, Except.map]

/-- Lexing in action mode at the closing delimiter: the accumulated
action body is emitted and text scanning resumes. -/
theorem lexAux_close_head (rest acc : GoStr) :
    lexAux (rbrace :: rbrace :: rest) true acc
      = (lexAux rest false []).map (fun items => .action acc.reverse :: items) := by
  cases h : lexAux rest false [] <;> simp [lexAux, h, Except.map]

/-- Text scanning passes over a marker-free text `t` (not ending in an
isolated `\x7b` that would pair with what follows) up to the next
delimiter. -/
theorem lexAux_text_through (t : GoStr) :
    ∀ (acc rest : GoStr), containsMarker t = false → t.getLast? ≠ some lbrace →
    lexAux (t ++ lbrace :: lbrace :: rest) false acc
      = (lexAux rest true []).map (fun items => .text (acc.reverse ++ t) :: items) := by
  induction t with
  | nil => intro acc rest _ _; simpa using lexAux_marker_head rest acc
  | cons c t ih =>
    intro acc rest hm hlast
    simp only [containsMarker] at hm
    cases t with
    | nil =>
      have hc : ¬(c = lbrace) := by
        intro h; exact hlast (by simp [h])
      rw [List.cons_append, List.nil_append]
      rw [show lexAux (c :: lbrace :: lbrace :: rest) false acc
          = lexAux (lbrace :: lbrace :: rest) false (c :: acc) by
        simp [lexAux, hc]]
      rw [lexAux_marker_head]
      simp
    | cons d t' =>
      have hcd : ¬(c = lbrace ∧ d = lbrace) := by
        intro ⟨h1, h2⟩
        simp [h1, h2] at hm
      have hm' : containsMarker (d :: t') = false := by
        have := (by simpa using hm :
          (c = lbrace → ¬d = lbrace) ∧ containsMarker (d :: t') = false)
        exact this.2
      have hlast' : (d :: t').getLast? ≠ some lbrace := by
        simpa [List.getLast?_cons_cons] using hlast
      rw [List.cons_append]
      rw [show lexAux (c :: (d :: t' ++ lbrace :: lbrace :: rest)) false acc
          = lexAux (d :: t' ++ lbrace :: lbrace :: rest) false (c :: acc) by
        simp only [List.cons_append]
        simp [lexAux, hcd]]
      rw [ih (c :: acc) rest hm' hlast']
      simp

/-- Action scanning passes over a close-free action body `a` (not
ending in an isolated `\x7d`) up to the closing delimiter. -/
theorem lexAux_action_through (a : GoStr) :
    ∀ (acc rest : GoStr), containsClose a = false → a.getLast? ≠ some rbrace →
    lexAux (a ++ rbrace :: rbrace :: rest) true acc
      = (lexAux rest false []).map (fun items => .action (acc.reverse ++ a) :: items) := by
  induction a with
  | nil => intro acc rest _ _; simpa using lexAux_close_head rest acc
  | cons c a ih =>
    intro acc rest hm hlast
    simp only [containsClose] at hm
    cases a with
    | nil =>
      have hc : ¬(c = rbrace) := by
        intro h; exact hlast (by simp [h])
      rw [List.cons_append, List.nil_append]
      rw [show lexAux (c :: rbrace :: rbrace :: rest) true acc
          = lexAux (rbrace :: rbrace :: rest) true (c :: acc) by
        simp [lexAux, hc]]
      rw [lexAux_close_head]
      simp
    | cons d a' =>
      have hcd : ¬(c = rbrace ∧ d = rbrace) := by
        intro ⟨h1, h2⟩
        simp [h1, h2] at hm
      have hm' : containsClose (d :: a') = false := by
        have := (by simpa using hm :
          (c = rbrace → ¬d = rbrace) ∧ containsClose (d :: a') = false)
        exact this.2
      have hlast' : (d :: a').getLast? ≠ some rbrace := by
        simpa [List.getLast?_cons_cons] using hlast
      rw [List.cons_append]
      rw [show lexAux (c :: (d :: a' ++ rbrace :: rbrace :: rest)) true acc
          = lexAux (d :: a' ++ rbrace :: rbrace :: rest) true (c :: acc) by
        simp only [List.cons_append]
        simp [lexAux, hcd]]
      rw [ih (c :: acc) rest hm' hlast']
      simp

/-- Text scanning of a marker-free string runs to the end of input,
emitting a single text item. -/
theorem lexAux_text_only (t : GoStr) :
    ∀ acc : GoStr, containsMarker t = false →
    lexAux t false acc = .ok [.text (acc.reverse ++ t)] := by
  induction t with
  | nil => intro acc _; simp [lexAux]
  | cons c t ih =>
    intro acc hm
    simp only [containsMarker] at hm
    cases t with
    | nil => simp [lexAux]
    | cons d t' =>
      have hcd : ¬(c = lbrace ∧ d = lbrace) := by
        intro ⟨h1, h2⟩
        simp [h1, h2] at hm
      have hm' : containsMarker (d :: t') = false := by
        have := (by simpa using hm :
          (c = lbrace → ¬d = lbrace) ∧ containsMarker (d :: t') = false)
        exact this.2
      rw [show lexAux (c :: d :: t') false acc
          = lexAux (d :: t') false (c :: acc) by simp [lexAux, hcd]]
      rw [ih (c :: acc) hm']
      simp

/-- A one-character suffix test is a test of the last character. -/
theorem hasSuffix_single (s : GoStr) (c : Char) :
    GoStrings.hasSuffix s [c] = true ↔ s.getLast? = some c := by
  unfold GoStrings.hasSuffix
  rw [show ([c] : GoStr).reverse = [c] from rfl, ← List.head?_reverse]
  cases s.reverse with
  | nil => simp [GoStrings.hasPrefix]
  | cons d ds => simp [GoStrings.hasPrefix]

/-- Modelled from the spec's default-suffix rule, as the refinement
target for C2: treat `long` as a plain URL and append the remainder —
nothing if the remainder is empty, directly after a trailing `/`, and
with one `/` inserted otherwise. -/
def plainAppend (long rem : GoStr) : GoStr :=
  if rem = [] then long
  else if GoStrings.hasSuffix long (gs "/") then long ++ rem
  else long ++ gs "/" ++ rem

/-- **C2 (amended).** For a long URL with no `\x7b\x7b` template marker
— and not ending in a lone `\x7b`, which would merge with the appended
default template into a marker — `expandLink` behaves as plain-URL
append: its result is exactly `urlParse` of `plainAppend long remainder`
(followed by the usual request-query merge).  In particular one `/` is
inserted unless `long` already ends in `/`, and an empty remainder
leaves `long` verbatim. -/
theorem expandLink_plain_is_append (compile : ReCompile) (long : GoStr)
    (env : ExpandEnv) (hm : containsMarker long = false)
    (hbr : GoStrings.hasSuffix long (gs "\x7b") = false) :
    expandLink compile long env
      = (urlParse (plainAppend long env.path)).map (applyRequestQuery env) := by
  have hgs : (gs "\x7b") = [lbrace] := by decide
  have hlastlb : long.getLast? ≠ some lbrace := by
    intro h
    rw [hgs] at hbr
    rw [(hasSuffix_single long lbrace).mpr h] at hbr
    cases hbr
  by_cases hslash : GoStrings.hasSuffix long (gs "/") = true
  · -- trailing slash: the appended suffix is `\x7b\x7b.Path\x7d\x7d`
    have hsfx : tmplPathSuffix = lbrace :: lbrace :: (gs ".Path" ++ rbrace :: rbrace :: []) := by
      decide
    have hlex1 : lexAux (gs ".Path" ++ rbrace :: rbrace :: []) true []
        = .ok [.action (gs ".Path"), .text []] := by decide
    have hlex : lexTemplate (long ++ tmplPathSuffix)
        = .ok [.text long, .action (gs ".Path"), .text []] := by
      rw [lexTemplate, hsfx, lexAux_text_through long [] _ hm hlastlb, hlex1]
      simp [Except.map]
    have hact : parseActionStr (gs ".Path") = .ok .fieldPath := by decide
    have hparse : parseTmpl (long ++ tmplPathSuffix)
        = .ok [.text long, .fieldPath, .text []] := by
      rw [parseTmpl, hlex]
      simp [buildAux, hact]
    have hexec : execTop compile env [.text long, .fieldPath, .text []]
        = .ok (long ++ env.path) := by
      simp [execTop]
    have happ : plainAppend long env.path = long ++ env.path := by
      by_cases hp : env.path = [] <;> simp [plainAppend, hslash, hp]
    cases h : urlParse (long ++ env.path) <;>
      simp [expandLink, hm, hslash, hparse, hexec, happ, h, Except.map]
  · -- no trailing slash: the `with`-guarded suffix is appended
    have hsfx : tmplWithSuffix = lbrace :: lbrace ::
        (gs "with .Path" ++ rbrace :: rbrace ::
          (gs "/" ++ lbrace :: lbrace :: (gs "." ++ rbrace :: rbrace ::
            (lbrace :: lbrace :: (gs "end" ++ rbrace :: rbrace :: []))))) := by
      decide
    have hlex1 : lexAux (gs "with .Path" ++ rbrace :: rbrace ::
          (gs "/" ++ lbrace :: lbrace :: (gs "." ++ rbrace :: rbrace ::
            (lbrace :: lbrace :: (gs "end" ++ rbrace :: rbrace :: []))))) true []
        = .ok [.action (gs "with .Path"), .text (gs "/"), .action (gs "."),
               .text [], .action (gs "end"), .text []] := by decide
    have hlex : lexTemplate (long ++ tmplWithSuffix)
        = .ok [.text long, .action (gs "with .Path"), .text (gs "/"),
               .action (gs "."), .text [], .action (gs "end"), .text []] := by
      rw [lexTemplate, hsfx, lexAux_text_through long [] _ hm hlastlb, hlex1]
      simp [Except.map]
    have hact1 : parseActionStr (gs "with .Path") = .ok .withPath := by decide
    have hact2 : parseActionStr (gs ".") = .ok .dotA := by decide
    have hact3 : parseActionStr (gs "end") = .ok .endA := by decide
    have hparse : parseTmpl (long ++ tmplWithSuffix)
        = .ok [.text long, .withPath [.text (gs "/"), .dotN, .text []], .text []] := by
      rw [parseTmpl, hlex]
      simp [buildAux, hact1, hact2, hact3]
    have hexec : execTop compile env
          [.text long, .withPath [.text (gs "/"), .dotN, .text []], .text []]
        = .ok (plainAppend long env.path) := by
      by_cases hp : env.path = [] <;>
        simp [execTop, execBody, plainAppend, hp, hslash]
    cases h : urlParse (plainAppend long env.path) <;>
      simp [expandLink, hm, hslash, hparse, hexec, h, Except.map]

/-- **C2, counterexample to the unamended claim.**  `"http://h/foo\x7b"`
contains no `\x7b\x7b` template marker, yet `expandLink` does not append
the remainder: the trailing `\x7b` merges with the appended default
template into a marker, and template parsing fails (Go:
`unrecognized character in action`), so the expansion errors instead of
yielding `"http://h/foo\x7b/extra"`. -/
theorem expandLink_plain_trailing_brace_fails :
    containsMarker (gs "http://h/foo\x7b") = false ∧
    expandLink compileStub (gs "http://h/foo\x7b") { path := gs "extra" }
      = .error .tmplParse := by
  constructor
  · decide
  · decide

/-- Witness for the amended C2 theorem: both spellings of the spec's
example expand to `"http://h/foo/extra"` — no double slash either way. -/
theorem expandLink_plain_is_append_witness :
    (expandLink compileStub (gs "http://h/foo") { path := gs "extra" }).map urlString
        = .ok (gs "http://h/foo/extra") ∧
    (expandLink compileStub (gs "http://h/foo/") { path := gs "extra" }).map urlString
        = .ok (gs "http://h/foo/extra") ∧
    (expandLink compileStub (gs "http://h/foo") { path := [] }).map urlString
        = .ok (gs "http://h/foo") := by
  refine ⟨?_, ?_, ?_⟩
  · rw [expandLink_plain_is_append compileStub (gs "http://h/foo") _ (by decide) (by decide)]
    decide
  · rw [expandLink_plain_is_append compileStub (gs "http://h/foo/") _ (by decide) (by decide)]
    decide
  · rw [expandLink_plain_is_append compileStub (gs "http://h/foo") _ (by decide) (by decide)]
    decide

/-- A string with an embedded `\x7b\x7b` contains the template marker. -/
theorem containsMarker_embedded (pre y : GoStr) :
    containsMarker (pre ++ lbrace :: lbrace :: y) = true := by
  induction pre with
  | nil => simp [containsMarker]
  | cons c pre ih => simp [containsMarker, ih]

/-- The template action `\x7b\x7b.User\x7d\x7d`. -/
def userAction : GoStr := gs "\x7b\x7b.User\x7d\x7d"

/-- Template-phase result for a long URL of the shape
`pre \x7b\x7b.User\x7d\x7d post` (with `pre`/`post` free of template
markers and `pre` not ending in a lone `\x7b`): it parses to exactly a
text node, the `.User` field, and a text node. -/
theorem parseTmpl_user_shape (pre post : GoStr)
    (hpre : containsMarker pre = false) (hprelast : pre.getLast? ≠ some lbrace)
    (hpost : containsMarker post = false) :
    parseTmpl (pre ++ userAction ++ post)
      = .ok [.text pre, .fieldUser, .text post] := by
  have hshape : pre ++ userAction ++ post
      = pre ++ lbrace :: lbrace :: (gs ".User" ++ rbrace :: rbrace :: post) := by
    have : userAction = lbrace :: lbrace :: (gs ".User" ++ rbrace :: rbrace :: []) := by
      decide
    simp [this]
  have hlex : lexTemplate (pre ++ userAction ++ post)
      = .ok [.text pre, .action (gs ".User"), .text post] := by
    rw [lexTemplate, hshape, lexAux_text_through pre [] _ hpre hprelast,
      lexAux_action_through (gs ".User") [] post (by decide) (by decide),
      lexAux_text_only post [] hpost]
    simp [Except.map]
  have hact : parseActionStr (gs ".User") = .ok .fieldUser := by decide
  rw [parseTmpl, hlex]
  simp [buildAux, hact]

/-- If a long URL contains a marker, parses to `ns`, and executes to
`out`, then `expandLink` is `urlParse out` (no request query to merge). -/
theorem expandLink_exec_ok (compile : ReCompile) (env : ExpandEnv) (long : GoStr)
    (ns : List Node) (out : GoStr) (hmark : containsMarker long = true)
    (hparse : parseTmpl long = .ok ns) (hexec : execTop compile env ns = .ok out)
    (hq : env.query = []) :
    expandLink compile long env = urlParse out := by
  cases h : urlParse out <;>
    simp [expandLink, hmark, hparse, hexec, applyRequestQuery, hq, h]

/-- If execution of a marker-carrying long URL fails, `expandLink`
surfaces that error. -/
theorem expandLink_exec_error (compile : ReCompile) (env : ExpandEnv) (long : GoStr)
    (ns : List Node) (e : Err) (hmark : containsMarker long = true)
    (hparse : parseTmpl long = .ok ns) (hexec : execTop compile env ns = .error e) :
    expandLink compile long env = .error e := by
  simp [expandLink, hmark, hparse, hexec]

/-- **C6.** A long URL whose template references the current user
(`pre \x7b\x7b.User\x7d\x7d post`): with no authenticated user in the
context, expansion aborts with the distinguished `errNoUser` error —
never a silently broken URL; with a user in the context, the user's
login is substituted into the result, which is then parsed as a URL as
usual. -/
theorem expandLink_user_reference (compile : ReCompile) (pre post : GoStr)
    (env : ExpandEnv) (hpre : containsMarker pre = false)
    (hprebr : GoStrings.hasSuffix pre (gs "\x7b") = false)
    (hpost : containsMarker post = false) (hq : env.query = []) :
    (env.user = [] →
      expandLink compile (pre ++ userAction ++ post) env = .error .noUser) ∧
    (env.user ≠ [] →
      expandLink compile (pre ++ userAction ++ post) env
        = urlParse (pre ++ env.user ++ post)) := by
  have hprelast : pre.getLast? ≠ some lbrace := by
    intro h
    rw [show (gs "\x7b") = [lbrace] from by decide,
      (hasSuffix_single pre lbrace).mpr h] at hprebr
    cases hprebr
  have hmark : containsMarker (pre ++ userAction ++ post) = true := by
    rw [show pre ++ userAction ++ post
        = pre ++ lbrace :: lbrace :: (gs ".User\x7d\x7d" ++ post) from by
      simp [userAction, show (gs "\x7b\x7b.User\x7d\x7d")
          = lbrace :: lbrace :: gs ".User\x7d\x7d" from by decide]]
    exact containsMarker_embedded _ _
  have hparse := parseTmpl_user_shape pre post hpre hprelast hpost
  constructor
  · intro hu
    exact expandLink_exec_error compile env _ _ _ hmark hparse
      (by simp [execTop, hu])
  · intro hu
    exact expandLink_exec_ok compile env _ _ _ hmark hparse
      (by simp [execTop, hu]) hq

/-- Witness for C6: `"http://host.com/\x7b\x7b.User\x7d\x7d"` fails
with the no-user error when no user is known, and substitutes
`a@x.com` when that user is in the context. -/
theorem expandLink_user_reference_witness :
    expandLink compileStub (gs "http://host.com/" ++ userAction ++ []) {}
        = .error .noUser ∧
    (expandLink compileStub (gs "http://host.com/" ++ userAction ++ [])
        { user := gs "a@x.com" }).map urlString
      = .ok (gs "http://host.com/a@x.com") := by
  constructor
  · exact (expandLink_user_reference compileStub (gs "http://host.com/") []
      {} (by decide) (by decide) (by decide) rfl).1 rfl
  · rw [(expandLink_user_reference compileStub (gs "http://host.com/") []
      { user := gs "a@x.com" } (by decide) (by decide) (by decide) rfl).2 (by decide)]
    decide

/-- A string without `\x7d` has no `\x7d\x7d` close pair. -/
theorem containsClose_of_no_rbrace (s : GoStr) (h : rbrace ∉ s) :
    containsClose s = false := by
  induction s with
  | nil => rfl
  | cons c cs ih =>
    simp only [List.mem_cons, not_or] at h
    have hc : ¬(c = rbrace ∧ cs.head? = some rbrace) := fun hcc => h.1 hcc.1.symm
    simp [containsClose, ih h.2, hc]

/-- `takeWhile (· ≠ c)` of `body ++ c :: tail` is `body` when `body` is
`c`-free. -/
theorem takeWhile_until (body tail : GoStr) (c : Char) (h : c ∉ body) :
    (body ++ c :: tail).takeWhile (· ≠ c) = body := by
  induction body with
  | nil => simp [List.takeWhile]
  | cons x xs ih =>
    simp only [List.mem_cons, not_or] at h
    have hx : ¬(x = c) := fun hc => h.1 hc.symm
    simpa [List.takeWhile, hx] using ih h.2

/-- Parsing a quoted literal whose body is quote- and backslash-free
consumes exactly through the closing quote. -/
theorem parseQuoted_exact (body tail : GoStr)
    (hq : '"' ∉ body) (hb : '\\' ∉ body) :
    parseQuoted ('"' :: (body ++ '"' :: tail)) = some (body, tail) := by
  have ht := takeWhile_until body tail '"' hq
  simp only [parseQuoted, ht]
  rw [show (body ++ '"' :: tail).drop body.length = '"' :: tail from
    List.drop_left body ('"' :: tail)]
  simp [hb]

/-- `trimSpace` is the identity on a string that neither starts nor
ends with whitespace. -/
theorem trimSpace_eq_self (s : GoStr)
    (h1 : ∀ c, s.head? = some c → isSpaceGo c = false)
    (h2 : ∀ c, s.getLast? = some c → isSpaceGo c = false) :
    trimSpace s = s := by
  unfold trimSpace
  have d1 : s.dropWhile isSpaceGo = s := by
    cases s with
    | nil => rfl
    | cons x xs => simp [List.dropWhile_cons, h1 x rfl]
  rw [d1]
  have d2 : s.reverse.dropWhile isSpaceGo = s.reverse := by
    cases hr : s.reverse with
    | nil => rfl
    | cons x xs =>
      have hx : s.getLast? = some x := by rw [← List.head?_reverse, hr]; rfl
      simp [List.dropWhile_cons, h2 x hx]
  rw [d2, List.reverse_reverse]

/-- The body of a `Match` action with two string-literal arguments:
`Match \x22pat\x22 \x22subj\x22`. -/
def matchActionBody (pat subj : GoStr) : GoStr :=
  gs "Match " ++ '"' :: (pat ++ '"' :: ' ' :: '"' :: (subj ++ ['"']))

/-- The full `\x7b\x7bMatch \x22pat\x22 \x22subj\x22\x7d\x7d` action. -/
def matchAction (pat subj : GoStr) : GoStr :=
  lbrace :: lbrace :: (matchActionBody pat subj ++ rbrace :: rbrace :: [])

/-- The `Match` action body parses to the `matchLit` action whenever the
two literals contain no quote and no backslash. -/
theorem parseActionStr_match (pat subj : GoStr)
    (hpq : '"' ∉ pat) (hpb : '\\' ∉ pat)
    (hsq : '"' ∉ subj) (hsb : '\\' ∉ subj) :
    parseActionStr (matchActionBody pat subj) = .ok (.matchLit pat subj) := by
  have hM : gs "Match " = 'M' :: 'a' :: 't' :: 'c' :: 'h' :: ' ' :: [] := by decide
  have hform : matchActionBody pat subj
      = 'M' :: 'a' :: 't' :: 'c' :: 'h' :: ' ' ::
        '"' :: (pat ++ '"' :: ' ' :: '"' :: (subj ++ ['"'])) := by
    rw [matchActionBody, hM]
    simp
  have hlast : (matchActionBody pat subj).getLast? = some '"' := by
    have : matchActionBody pat subj
        = (gs "Match " ++ '"' :: (pat ++ '"' :: ' ' :: '"' :: subj)) ++ ['"'] := by
      simp [matchActionBody]
    rw [this, List.getLast?_concat]
  have htrim : trimSpace (matchActionBody pat subj) = matchActionBody pat subj := by
    refine trimSpace_eq_self _ ?_ ?_
    · intro c hc
      rw [hform] at hc
      cases hc
      decide
    · intro c hc
      rw [hlast] at hc
      cases hc
      decide
  rw [parseActionStr, htrim]
  rw [hform]
  have hq1 : parseQuoted ('"' :: (pat ++ '"' :: (' ' :: '"' :: (subj ++ ['"']))))
      = some (pat, ' ' :: '"' :: (subj ++ ['"'])) := parseQuoted_exact pat _ hpq hpb
  have hq2 : parseQuoted ('"' :: (subj ++ '"' :: ([] : GoStr)))
      = some (subj, []) := parseQuoted_exact subj [] hsq hsb
  have he : gs "end" = ['e', 'n', 'd'] := by decide
  have hd : gs "." = ['.'] := by decide
  simp [GoStrings.hasPrefix, isSpaceGo, List.dropWhile, hq1, hq2, he, hd]

/-- The `Match` action body ends with its closing quote. -/
theorem matchActionBody_getLast (pat subj : GoStr) :
    (matchActionBody pat subj).getLast? = some '"' := by
  have h : matchActionBody pat subj
      = (gs "Match " ++ '"' :: (pat ++ '"' :: ' ' :: '"' :: subj)) ++ ['"'] := by
    simp [matchActionBody]
  rw [h, List.getLast?_concat]

/-- Template-phase result for a long URL of the shape
`pre \x7b\x7bMatch "pat" "subj"\x7d\x7d post`. -/
theorem parseTmpl_match_shape (pre post pat subj : GoStr)
    (hpre : containsMarker pre = false) (hprelast : pre.getLast? ≠ some lbrace)
    (hpost : containsMarker post = false)
    (hpq : '"' ∉ pat) (hpb : '\\' ∉ pat) (hpr : rbrace ∉ pat)
    (hsq : '"' ∉ subj) (hsb : '\\' ∉ subj) (hsr : rbrace ∉ subj) :
    parseTmpl (pre ++ matchAction pat subj ++ post)
      = .ok [.text pre, .matchLit pat subj, .text post] := by
  have hshape : pre ++ matchAction pat subj ++ post
      = pre ++ lbrace :: lbrace ::
          (matchActionBody pat subj ++ rbrace :: rbrace :: post) := by
    simp [matchAction]
  have hnorb : rbrace ∉ matchActionBody pat subj := by
    intro hmem
    simp only [matchActionBody, List.mem_append, List.mem_cons,
      List.mem_singleton] at hmem
    simp [show rbrace ∉ gs "Match " from by decide,
      show ¬rbrace = '"' from by decide, show ¬rbrace = ' ' from by decide,
      hpr, hsr] at hmem
  have hlastbody : (matchActionBody pat subj).getLast? ≠ some rbrace := by
    rw [matchActionBody_getLast]
    simp
    decide
  have hlex : lexTemplate (pre ++ matchAction pat subj ++ post)
      = .ok [.text pre, .action (matchActionBody pat subj), .text post] := by
    rw [lexTemplate, hshape, lexAux_text_through pre [] _ hpre hprelast,
      lexAux_action_through (matchActionBody pat subj) [] post
        (containsClose_of_no_rbrace _ hnorb) hlastbody,
      lexAux_text_only post [] hpost]
    simp [Except.map]
  rw [parseTmpl, hlex]
  simp [buildAux, parseActionStr_match pat subj hpq hpb hsq hsb]

/-- **C10.** The `Match` template function is total and never fails
expansion.  First conjunct: when the pattern fails to compile,
`regexMatch` discards the error and returns `false` (for an arbitrary
compiler standing for `regexp.Compile`).  Second conjunct: a template
calling `Match` on any pattern and subject literals — valid regular
expression or not — executes without error, and `expandLink` just
substitutes `true`/`false` into the URL. -/
theorem regexMatch_total_in_expansion (compile : ReCompile)
    (pat subj pre post : GoStr) (env : ExpandEnv)
    (hpre : containsMarker pre = false)
    (hprebr : GoStrings.hasSuffix pre (gs "\x7b") = false)
    (hpost : containsMarker post = false)
    (hpq : '"' ∉ pat) (hpb : '\\' ∉ pat) (hpr : rbrace ∉ pat)
    (hsq : '"' ∉ subj) (hsb : '\\' ∉ subj) (hsr : rbrace ∉ subj)
    (hq : env.query = []) :
    (∀ e, compile pat = .error e → regexMatch compile pat subj = false) ∧
    expandLink compile (pre ++ matchAction pat subj ++ post) env
      = urlParse (pre ++ boolStr (regexMatch compile pat subj) ++ post) := by
  have hprelast : pre.getLast? ≠ some lbrace := by
    intro h
    rw [show (gs "\x7b") = [lbrace] from by decide,
      (hasSuffix_single pre lbrace).mpr h] at hprebr
    cases hprebr
  constructor
  · intro e he
    simp [regexMatch, matchStringGo, he]
  · have hmark : containsMarker (pre ++ matchAction pat subj ++ post) = true := by
      rw [show pre ++ matchAction pat subj ++ post
          = pre ++ lbrace :: lbrace ::
              (matchActionBody pat subj ++ rbrace :: rbrace :: post) from by
        simp [matchAction]]
      exact containsMarker_embedded _ _
    exact expandLink_exec_ok compile env _ _ _ hmark
      (parseTmpl_match_shape pre post pat subj hpre hprelast hpost
        hpq hpb hpr hsq hsb hsr)
      (by simp [execTop]) hq

/-- Witness for C10: the invalid pattern `"("` fails to compile under
the stub compiler, `Match` returns `false`, and the surrounding
expansion succeeds, producing `http://host.com/false`. -/
theorem regexMatch_total_in_expansion_witness :
    compileStub (gs "(") = .error (gs "missing closing )") ∧
    regexMatch compileStub (gs "(") (gs "x") = false ∧
    (expandLink compileStub
        (gs "http://host.com/" ++ matchAction (gs "(") (gs "x") ++ []) {}).map urlString
      = .ok (gs "http://host.com/false") := by
  have h := regexMatch_total_in_expansion compileStub (gs "(") (gs "x")
    (gs "http://host.com/") [] {} (by decide) (by decide) (by decide)
    (by decide) (by decide) (by decide) (by decide) (by decide) (by decide) rfl
  refine ⟨rfl, h.1 _ rfl, ?_⟩
  rw [h.2]
  decide

/-- `Add` appends to the slice of the added key. -/
theorem valuesGet_add_same (m : Values) (k v : GoStr) :
    valuesGet (valuesAdd m k v) k = valuesGet m k ++ [v] := by
  induction m with
  | nil => simp [valuesAdd, valuesGet, List.find?]
  | cons e rest ih =>
    by_cases h : e.1 = k
    · simp [valuesAdd, valuesGet, List.find?, h]
    · simp [valuesAdd, valuesGet, List.find?, h] at ih ⊢
      exact ih

/-- `Add` leaves other keys' slices unchanged. -/
theorem valuesGet_add_other (m : Values) (k v k' : GoStr) (hk : k' ≠ k) :
    valuesGet (valuesAdd m k v) k' = valuesGet m k' := by
  have hkk : ¬(k = k') := fun h => hk h.symm
  induction m with
  | nil => simp [valuesAdd, valuesGet, List.find?, hkk]
  | cons e rest ih =>
    by_cases h : e.1 = k
    · simp [valuesAdd, valuesGet, List.find?, h, hkk]
    · by_cases h2 : e.1 = k'
      · simp [valuesAdd, valuesGet, List.find?, h, h2, hk]
      · simp [valuesAdd, valuesGet, List.find?, h, h2, hk] at ih ⊢
        exact ih

/-- Adding a whole slice for one key appends it to that key's slice. -/
theorem valuesGet_addSlice_same (vs : List GoStr) :
    ∀ (m : Values) (k : GoStr),
    valuesGet (vs.foldl (fun a v => valuesAdd a k v) m) k = valuesGet m k ++ vs := by
  induction vs with
  | nil => intro m k; simp
  | cons v vs ih =>
    intro m k
    simp only [List.foldl_cons]
    rw [ih (valuesAdd m k v) k, valuesGet_add_same]
    simp

/-- Adding a slice for one key leaves other keys unchanged. -/
theorem valuesGet_addSlice_other (vs : List GoStr) :
    ∀ (m : Values) (k k' : GoStr), k' ≠ k →
    valuesGet (vs.foldl (fun a v => valuesAdd a k v) m) k' = valuesGet m k' := by
  induction vs with
  | nil => intro m k k' _; simp
  | cons v vs ih =>
    intro m k k' hk
    simp only [List.foldl_cons]
    rw [ih (valuesAdd m k v) k k' hk, valuesGet_add_other m k v k' hk]

/-- Keys absent from `extra` are untouched by the merge fold. -/
theorem valuesGet_addAll_notMem (extra : Values) :
    ∀ (base : Values) (k : GoStr), k ∉ extra.map Prod.fst →
    valuesGet (addAllValues base extra) k = valuesGet base k := by
  induction extra with
  | nil => intro base k _; rfl
  | cons kv rest ih =>
    intro base k hk
    simp only [List.map_cons, List.mem_cons, not_or] at hk
    rw [addAllValues, List.foldl_cons, ← addAllValues,
      ih _ k hk.2, valuesGet_addSlice_other kv.2 base kv.1 k hk.1]

/-- **C3.** `expandLink` appends the inbound request's query parameters
to whatever query parameters the expanded URL already has, never
replacing them.  First conjunct: for every key, the merged values are
the URL's own values followed by the request's values — union, not
override (for request queries with one entry per key, as `ParseQuery`
produces).  Second conjunct: with `Long = "/rel?a=1"` and request query
`"a=2&b=2"`, the resulting query is `a=1&a=2&b=2` — duplicate keys
accumulate. -/
theorem expandLink_query_merge_appends :
    (∀ (base extra : Values) (k : GoStr), (extra.map Prod.fst).Nodup →
      valuesGet (addAllValues base extra) k = valuesGet base k ++ valuesGet extra k) ∧
    (expandLink compileStub (gs "/rel?a=1")
        { query := parseQuery [] (gs "a=2&b=2") }).map (fun u => u.rawQuery)
      = .ok (gs "a=1&a=2&b=2") := by
  constructor
  · intro base extra
    induction extra generalizing base with
    | nil => intro k _; simp [addAllValues, valuesGet, List.find?]
    | cons kv rest ih =>
      intro k hnd
      simp only [List.map_cons, List.nodup_cons] at hnd
      rw [addAllValues, List.foldl_cons, ← addAllValues]
      by_cases hk : k = kv.1
      · rw [hk, valuesGet_addAll_notMem rest _ kv.1 hnd.1,
          valuesGet_addSlice_same kv.2 base kv.1]
        simp [valuesGet, List.find?]
      · rw [ih (kv.2.foldl (fun a v => valuesAdd a kv.1 v) base) k hnd.2,
          valuesGet_addSlice_other kv.2 base kv.1 k hk]
        have : ¬(kv.1 = k) := fun h => hk h.symm
        simp [valuesGet, List.find?, this]
  · decide

/-- Witness for C3 at the spec's example: the URL's own `a=1` is kept,
the request's `a=2` is appended to key `a`, and `b=2` is added. -/
theorem expandLink_query_merge_appends_witness :
    valuesGet (addAllValues [(gs "a", [gs "1"])] [(gs "a", [gs "2"]), (gs "b", [gs "2"])])
        (gs "a")
      = [gs "1", gs "2"] := by
  rw [expandLink_query_merge_appends.1 [(gs "a", [gs "1"])]
    [(gs "a", [gs "2"]), (gs "b", [gs "2"])] (gs "a") (by decide)]
  decide
